import Mathlib

/-!
Verification of the two-pass assembler in `assembler.py` (учебная ВМ, variant 23).

The Python source is embedded shallowly: strings are lists of characters,
the mutable `Assembler` instance state (`program`, `labels`, `current_address`)
is threaded explicitly, and `ValueError` raising / try-except is rendered with
`Except` / `Option` following the source's control flow.
-/

namespace Asm

/-- Strings are modelled as lists of characters. -/
abbrev Str := List Char

/-- Python `str.isspace` (`Py_UNICODE_ISSPACE`), the character class
`str.strip()` and `str.split()` work with: the ASCII control whitespace
U+0009..U+000D, the file/group/record/unit separators U+001C..U+001F, the
space, and the Unicode whitespace code points NEL, NBSP, OGHAM SPACE MARK,
the U+2000..U+200A spaces, LINE/PARAGRAPH SEPARATOR, NARROW NBSP, MMSP and
IDEOGRAPHIC SPACE. -/
def pyIsSpace (c : Char) : Bool :=
  (decide (9 ≤ c.toNat) && decide (c.toNat ≤ 13)) ||
  (decide (28 ≤ c.toNat) && decide (c.toNat ≤ 32)) ||
  c.toNat == 0x85 || c.toNat == 0xA0 || c.toNat == 0x1680 ||
  (decide (0x2000 ≤ c.toNat) && decide (c.toNat ≤ 0x200A)) ||
  c.toNat == 0x2028 || c.toNat == 0x2029 || c.toNat == 0x202F ||
  c.toNat == 0x205F || c.toNat == 0x3000

/-- Python `str.strip()`: drop whitespace from both ends. -/
def pyStrip (s : Str) : Str :=
  ((s.dropWhile pyIsSpace).reverse.dropWhile pyIsSpace).reverse

/-- Python `str.lower()`, restricted to ASCII case folding.  CPython also
lowercases non-ASCII cased letters, but no such letter maps to a character
`parse_number` can accept (a digit, sign, underscore, whitespace or one of
the prefix letters `0x`/`0b`/`0o` it tests for), and the only non-ASCII
letters whose lowercase forms contain ASCII at all (U+212A KELVIN SIGN →
`k`, U+0130 → `i` plus a combining dot) lowercase to letters that are
invalid in every base `parse_number` uses, so both models reject every
token containing them and the restriction is observationally identical
here. -/
def pyLower (s : Str) : Str := s.map Char.toLower

/-- C-level whitespace (`Py_ISSPACE`): the only characters the ASCII number
parser `PyLong_FromString` inside `int()` skips before and after a literal
(note: a narrower set than `str.isspace`, e.g. U+001C is stripped by
`str.strip()` but rejected by `int()`). -/
def cIsSpace (c : Char) : Bool :=
  (decide (9 ≤ c.toNat) && decide (c.toNat ≤ 13)) || c.toNat == 32

/-- Start code points of the Unicode decimal-digit blocks: each block is the
ten consecutive code points `s..s+9` carrying decimal digit values `0..9`
(the `Nd` digits consulted by `Py_UNICODE_TODECIMAL`; first block is ASCII
`0`..`9`). -/
def decimalDigitStarts : List Nat :=
  [48, 1632, 1776, 1984, 2406, 2534, 2662, 2790, 2918, 3046,
   3174, 3302, 3430, 3558, 3664, 3792, 3872, 4160, 4240, 6112,
   6160, 6470, 6608, 6784, 6800, 6992, 7088, 7232, 7248, 42528,
   43216, 43264, 43472, 43504, 43600, 44016, 65296, 66720, 68912, 69734,
   69872, 69942, 70096, 70384, 70736, 70864, 71248, 71360, 71472, 71904,
   72016, 72784, 73040, 73120, 92768, 92864, 93008, 120782, 120792, 120802,
   120812, 120822, 123200, 123632, 125264, 130032]

/-- `Py_UNICODE_TODECIMAL`: the decimal digit value of a code point, if it
is a Unicode decimal digit. -/
def uniDecimal (n : Nat) : Option Nat :=
  match decimalDigitStarts.find? (fun s => decide (s ≤ n) && decide (n < s + 10)) with
  | some s => some (n - s)
  | none => none

/-- One character of `_PyUnicode_TransformDecimalAndSpaceToASCII`, which
`int()` applies to its argument before the ASCII parse: ASCII passes
through unchanged, non-ASCII whitespace becomes a space, a Unicode decimal
digit becomes the corresponding ASCII digit, and any other non-ASCII
character becomes `?` (CPython also truncates the string right after such a
`?`, which is observationally the same because the `?` itself already makes
the ASCII parse fail). -/
def transformChar (c : Char) : Char :=
  if c.toNat < 127 then c
  else if pyIsSpace c then ' '
  else
    match uniDecimal c.toNat with
    | some d => Char.ofNat (48 + d)
    | none => '?'

/-- The transform applied to a whole string. -/
def pyTransform (s : Str) : Str := s.map transformChar

/-- Drop C-level whitespace from both ends (the skipping `PyLong_FromString`
performs around the literal). -/
def cStrip (s : Str) : Str :=
  ((s.dropWhile cIsSpace).reverse.dropWhile cIsSpace).reverse

/-- Auxiliary for Python `str.split()` with no separator: accumulate the
current token (reversed) and split on whitespace runs, discarding empties. -/
def splitWsAux : Str → Str → List Str
  | [], acc => if acc = [] then [] else [acc.reverse]
  | c :: cs, acc =>
    if pyIsSpace c then
      if acc = [] then splitWsAux cs [] else acc.reverse :: splitWsAux cs []
    else splitWsAux cs (c :: acc)

/-- Python `str.split()` with no argument. -/
def pySplitWs (s : Str) : List Str := splitWsAux s []

/-- Python `source.split('\n')`: split on every separator, keeping empties. -/
def splitOnChar (sep : Char) : Str → List Str
  | [] => [[]]
  | c :: cs =>
    if c = sep then [] :: splitOnChar sep cs
    else
      match splitOnChar sep cs with
      | [] => [[c]]
      | t :: ts => (c :: t) :: ts

/-- Python `line.endswith(':')`. -/
def endsWithColon (l : Str) : Bool :=
  match l.getLast? with
  | some c => c == ':'
  | none => false

/-- Digit value of an ASCII character for a given base, as accepted by the
ASCII parser inside Python `int(s, base)` (`_PyLong_DigitValue`): `0`..`9`
are 0..9 and `a`..`z` / `A`..`Z` are 10..35, valid when below the base. -/
def digitVal (base : Nat) (c : Char) : Option Nat :=
  -- 48..57 is '0'..'9', 97..122 is 'a'..'z', 65..90 is 'A'..'Z'
  if 48 ≤ c.toNat ∧ c.toNat ≤ 57 then
    if c.toNat - 48 < base then some (c.toNat - 48) else none
  else if 97 ≤ c.toNat ∧ c.toNat ≤ 122 then
    if c.toNat - 97 + 10 < base then some (c.toNat - 97 + 10) else none
  else if 65 ≤ c.toNat ∧ c.toNat ≤ 90 then
    if c.toNat - 65 + 10 < base then some (c.toNat - 65 + 10) else none
  else none

/-- Digits after the first one: CPython allows a single `_` between two
digits, never trailing or doubled. -/
def digitsGo (base : Nat) (acc : Nat) : Str → Option Nat
  | [] => some acc
  | c :: cs =>
    if c = '_' then
      match cs with
      | [] => none
      | d :: ds =>
        match digitVal base d with
        | some v => digitsGo base (acc * base + v) ds
        | none => none
    else
      match digitVal base c with
      | some v => digitsGo base (acc * base + v) cs
      | none => none

/-- A nonempty digit string (no leading underscore), CPython underscore rules. -/
def pyDigits (base : Nat) : Str → Option Nat
  | [] => none
  | c :: cs =>
    match digitVal base c with
    | some v => digitsGo base v cs
    | none => none

/-- After the sign: CPython allows at most one base prefix (e.g. `0x`/`0X`
for base 16; a literal `0` then the prefix letter case-insensitively),
optionally followed by a single underscore before the digits. -/
def pyIntNat (base : Nat) (pfx : Option (Char × Char)) (s : Str) : Option Nat :=
  match pfx, s with
  | some (p₁, p₂), c₁ :: c₂ :: rest =>
    if c₁ = p₁ ∧ Char.toLower c₂ = p₂ then
      match rest with
      | '_' :: rest₂ => pyDigits base rest₂
      | _ => pyDigits base rest
    else pyDigits base s
  | _, _ => pyDigits base s

/-- CPython `int(s, base)`: transform Unicode decimal digits and whitespace
to ASCII, strip C-level whitespace, then an optional single sign, an
optional base prefix and the digits.  `none` models the `ValueError` raised
on malformed input. -/
def pyInt (base : Nat) (pfx : Option (Char × Char)) (s : Str) : Option Int :=
  match cStrip (pyTransform s) with
  | '+' :: rest => (pyIntNat base pfx rest).map (fun n => Int.ofNat n)
  | '-' :: rest => (pyIntNat base pfx rest).map (fun n => -(Int.ofNat n))
  | t => (pyIntNat base pfx t).map (fun n => Int.ofNat n)

/-- `Assembler.parse_number`: strip and lowercase, detect a `0x`/`0b`/`0o`
prefix, else decimal; the remainder `s[2:]` is handed to `int(·, base)`. -/
def parse_number (s : Str) : Option Int :=
  match pyLower (pyStrip s) with
  | '0' :: 'x' :: rest => pyInt 16 (some ('0', 'x')) rest
  | '0' :: 'b' :: rest => pyInt 2 (some ('0', 'b')) rest
  | '0' :: 'o' :: rest => pyInt 8 (some ('0', 'o')) rest
  | t => pyInt 10 none t

/-- The opcode enumeration of the VM. -/
inductive Opcode where
  | STORE
  | LOAD
  | CONST
  | BITREV
deriving DecidableEq, Repr

/-- Numeric identifier of each opcode (`IntEnum` values). -/
def Opcode.id : Opcode → Nat
  | .STORE => 1
  | .LOAD => 23
  | .CONST => 42
  | .BITREV => 60

/-- The mnemonic table `Assembler.MNEMONICS`. -/
def MNEMONICS : List (Str × Opcode) :=
  [("store".data, .STORE), ("load".data, .LOAD),
   ("const".data, .CONST), ("bitrev".data, .BITREV)]

/-- One intermediate instruction record (the Python dict `cmd`); the optional
keys `value`, `address_arg`, `label` are `Option` fields, `none` meaning the
key is absent. -/
structure Cmd where
  address : Nat
  opcode : Opcode
  mnemonic : Str
  args : List Str
  raw_line : Str
  value : Option Nat := none
  address_arg : Option Nat := none
  label : Option Str := none
deriving DecidableEq, Repr

/-- The mutable instance state of an `Assembler` object. -/
structure AsmState where
  program : List Cmd
  labels : List (Str × Nat)
  current_address : Nat
deriving DecidableEq, Repr

/-- `Assembler.__init__`. -/
def mkAssembler : AsmState := ⟨[], [], 0⟩

deriving instance DecidableEq for Except

/-- Errors the assembler can raise (all `ValueError` in Python, distinguished
here by their messages).  No out-of-range constructor appears: in the source
the out-of-range `raise` sits inside the `try` whose `except ValueError`
performs the label fallback, so it never escapes `parse_line`. -/
inductive AsmErr where
  | duplicateLabel (name : Str)
  | unknownMnemonic (name : Str)
  | arityError (mnemonic : Str) (line : Str)
  | unknownLabel (name : Str)
  | atLine (n : Nat) (e : AsmErr)
deriving DecidableEq, Repr

/-- `Assembler.parse_line`.  Comment stripping, blank lines, label
definitions, mnemonic lookup, per-opcode arity validation, and the
numeric-or-label argument resolution.  For `CONST`/`LOAD` the source wraps
both the number parse and the range check in one `try`, whose
`except ValueError` sets `cmd['label']`; hence a parsed-but-out-of-range
value also degrades to the label fallback. -/
def parse_line (st : AsmState) (line₀ : Str) :
    Except AsmErr (Option Cmd × AsmState) :=
  -- `line.split(';')[0]` when ';' is present, which equals takeWhile (≠ ';')
  let line₁ := line₀.takeWhile (fun c => c ≠ ';')
  let line := pyStrip line₁
  if line = [] then .ok (none, st)
  else if endsWithColon line then
    let label := pyStrip line.dropLast
    match List.lookup label st.labels with
    | some _ => .error (.duplicateLabel label)
    | none =>
      .ok (none, { st with labels := st.labels ++ [(label, st.current_address)] })
  else
    match pySplitWs line with
    | [] => .ok (none, st)
    | p :: rest =>
      let mnemonic := pyLower p
      match List.lookup mnemonic MNEMONICS with
      | none => .error (.unknownMnemonic mnemonic)
      | some opcode =>
        let args := rest
        let cmd : Cmd :=
          { address := st.current_address, opcode := opcode,
            mnemonic := mnemonic, args := args, raw_line := line }
        match opcode with
        | .CONST =>
          match args with
          | [a] =>
            let cmd' :=
              match parse_number a with
              | some v =>
                -- the guard `0 ≤ v` lets the stored int be carried as a Nat
                if 0 ≤ v ∧ v ≤ 65535 then { cmd with value := some v.toNat }
                else { cmd with label := some a }
              | none => { cmd with label := some a }
            .ok (some cmd', { st with current_address := st.current_address + 1 })
          | _ => .error (.arityError mnemonic line)
        | .LOAD =>
          match args with
          | [a] =>
            let cmd' :=
              match parse_number a with
              | some v =>
                if 0 ≤ v ∧ v ≤ 16777215 then { cmd with address_arg := some v.toNat }
                else { cmd with label := some a }
              | none => { cmd with label := some a }
            .ok (some cmd', { st with current_address := st.current_address + 1 })
          | _ => .error (.arityError mnemonic line)
        | .STORE =>
          match args with
          | [] => .ok (some cmd, { st with current_address := st.current_address + 1 })
          | _ => .error (.arityError mnemonic line)
        | .BITREV =>
          match args with
          | [] => .ok (some cmd, { st with current_address := st.current_address + 1 })
          | _ => .error (.arityError mnemonic line)

/-- The first pass of `Assembler.assemble`: run `parse_line` over the lines
with 1-based numbering, appending yielded records and tagging errors with
their line number. -/
def pass1 (st : AsmState) (n : Nat) : List Str → Except AsmErr AsmState
  | [] => .ok st
  | l :: ls =>
    match parse_line st l with
    | .error e => .error (.atLine n e)
    | .ok (some cmd, st') =>
      pass1 { st' with program := st'.program ++ [cmd] } (n + 1) ls
    | .ok (none, st') => pass1 st' (n + 1) ls

/-- The body of the second-pass loop: resolve one record's deferred label
reference against the label table. -/
def resolve_cmd (labels : List (Str × Nat)) (cmd : Cmd) : Except AsmErr Cmd :=
  match cmd.label with
  | none => .ok cmd
  | some l =>
    match List.lookup l labels with
    | none => .error (.unknownLabel l)
    | some a =>
      match cmd.opcode with
      | .CONST => .ok { cmd with value := some a, label := none }
      | .LOAD => .ok { cmd with address_arg := some a, label := none }
      | _ => .ok cmd

/-- The second pass of `Assembler.assemble` over the collected records. -/
def pass2 (labels : List (Str × Nat)) : List Cmd → Except AsmErr (List Cmd)
  | [] => .ok []
  | c :: cs =>
    match resolve_cmd labels c with
    | .error e => .error e
    | .ok c' =>
      match pass2 labels cs with
      | .error e => .error e
      | .ok cs' => .ok (c' :: cs')

/-- `Assembler.assemble` on a pre-split list of lines (the loop bodies of the
two passes, after `source.split('\n')`). -/
def assembleL (lines : List Str) : Except AsmErr (List Cmd) :=
  match pass1 mkAssembler 1 lines with
  | .error e => .error e
  | .ok st => pass2 st.labels st.program

/-- `Assembler.assemble`: reset the instance state, split the source on
newlines, then the two passes. -/
def assemble (self : AsmState) (source : String) : Except AsmErr (List Cmd) :=
  let st₀ := { self with program := [], labels := [], current_address := 0 }
  let lines := splitOnChar '\n' source.data
  match pass1 st₀ 1 lines with
  | .error e => .error e
  | .ok st => pass2 st.labels st.program

/-- `assemble` on a fresh instance (`Assembler()` as the CLI and the tests do). -/
def assembleS (source : String) : Except AsmErr (List Cmd) :=
  assemble mkAssembler source

/-- `struct.pack('<I', n)`: the four little-endian bytes, or `struct.error`
for values outside 32 bits. -/
def pack4 (n : Nat) : Except String (List Nat) :=
  if n < 4294967296 then
    .ok [n % 256, n / 256 % 256, n / 65536 % 256, n / 16777216 % 256]
  else .error "struct.error"

/-- `Assembler.encode_instruction`: opcode id in bits 0-5, the operand (with
Python `dict.get` default 0) shifted into the bits above. -/
def encode_instruction (cmd : Cmd) : Except String (List Nat) :=
  match cmd.opcode with
  | .CONST => pack4 ((cmd.value.getD 0) <<< 6 ||| Opcode.CONST.id)
  | .LOAD => pack4 ((cmd.address_arg.getD 0) <<< 6 ||| Opcode.LOAD.id)
  | .STORE => pack4 Opcode.STORE.id
  | .BITREV => pack4 Opcode.BITREV.id

/-- `Assembler.to_binary`: concatenate the words in program order. -/
def to_binary : List Cmd → Except String (List Nat)
  | [] => .ok []
  | c :: cs =>
    match encode_instruction c with
    | .error e => .error e
    | .ok w =>
      match to_binary cs with
      | .error e => .error e
      | .ok ws => .ok (w ++ ws)

/-- The `main` pipeline on a source string: assemble then emit the binary
(assembly errors keep their own type, so they are reported as a fixed text). -/
def assemble_to_binary (source : String) : Except String (List Nat) :=
  match assembleS source with
  | .error _ => .error "assembly failed"
  | .ok prog => to_binary prog

/-- Little-endian reassembly of a 4-byte word, the decoding direction of the
round-trip law in the specification. -/
def le4Word (b₀ b₁ b₂ b₃ : Nat) : Nat :=
  b₀ + 256 * b₁ + 65536 * b₂ + 16777216 * b₃

/-- The record `parse_line` yields for a bare `store` line at address `a`. -/
def storeCmd (a : Nat) : Cmd :=
  { address := a, opcode := .STORE, mnemonic := ("store".data),
    args := [], raw_line := ("store".data) }

/-- `n` consecutive STORE records starting at address `a`. -/
def storeCmds : Nat → Nat → List Cmd
  | _, 0 => []
  | a, n + 1 => storeCmd a :: storeCmds (a + 1) n

/-- The record `parse_line` yields for the line `const fin` at address `a`:
the argument is kept as a deferred label reference. -/
def finCmd (a : Nat) : Cmd :=
  { address := a, opcode := .CONST, mnemonic := ("const".data),
    args := [("fin".data)], raw_line := ("const fin".data),
    label := some ("fin".data) }

/-- Join lines with newline separators (inverse of `split('\n')` for
newline-free lines). -/
def joinNL : List Str → Str
  | [] => []
  | [l] => l
  | l :: ls => l ++ '\n' :: joinNL ls

/-- 65536 `store` lines, a label `fin:` bound to address 65536, and a CONST
referencing it — the smallest shape on which pass 2 writes an operand that
exceeds the 16-bit CONST range. -/
def bigLines : List Str :=
  List.replicate 65536 ("store".data) ++ [("fin:".data), ("const fin".data)]

/-- The same program as one newline-separated source string. -/
def bigSrc : String := ⟨joinNL bigLines⟩

/-- Upper bound on the characters an accepted numeric literal may contain,
up to the lowercasing `parse_number` performs: whitespace (strippable,
including Unicode whitespace), a sign, an underscore separator, a
base-prefix letter `x`/`o`, an ASCII decimal digit (codes 48-57), a hex
digit letter a-f (codes 97-102; this includes the prefix letter `b`), or a
Unicode decimal digit. -/
def numCharOK (c : Char) : Prop :=
  pyIsSpace c = true ∨ c = '+' ∨ c = '-' ∨ c = '_' ∨ c = 'x' ∨ c = 'o' ∨
    (48 ≤ c.toNat ∧ c.toNat ≤ 57) ∨ (97 ≤ c.toNat ∧ c.toNat ≤ 102) ∨
    (uniDecimal c.toNat).isSome = true

instance (c : Char) : Decidable (numCharOK c) := by
  unfold numCharOK
  infer_instance

/-- Characters that may appear in the digit part of an accepted literal
after the ASCII transform: an underscore separator, an ASCII decimal digit,
or a hex digit letter a-f / A-F. -/
def digitCharOK (c : Char) : Prop :=
  c = '_' ∨ (48 ≤ c.toNat ∧ c.toNat ≤ 57) ∨ (97 ≤ c.toNat ∧ c.toNat ≤ 102) ∨
    (65 ≤ c.toNat ∧ c.toNat ≤ 70)

instance (c : Char) : Decidable (digitCharOK c) := by
  unfold digitCharOK
  infer_instance

theorem pack4_ok (n : Nat) (hn : n < 4294967296) :
    pack4 n = .ok [n % 256, n / 256 % 256, n / 65536 % 256, n / 16777216 % 256] := by
  unfold pack4
  rw [if_pos hn]

theorem le4Word_bytes (n : Nat) (hn : n < 4294967296) :
    le4Word (n % 256) (n / 256 % 256) (n / 65536 % 256) (n / 16777216 % 256) = n := by
  unfold le4Word
  omega

/-- Packing an operand above a 6-bit opcode id: for a small second operand the
bitwise or is plain addition. -/
theorem shiftLeft6_lor (v b : Nat) (hb : b < 64) : v <<< 6 ||| b = 64 * v + b := by
  have hrw : 64 * v + b = 2 ^ 6 * v + b := by ring_nf
  apply Nat.eq_of_testBit_eq
  intro i
  rw [hrw, Nat.testBit_mul_pow_two_add v (by omega : b < 2 ^ 6) i,
    Nat.testBit_or, Nat.testBit_shiftLeft]
  by_cases hi : i < 6
  · have : ¬ 6 ≤ i := by omega
    simp [hi, this]
  · have h6 : 6 ≤ i := by omega
    have hbf : b.testBit i = false :=
      Nat.testBit_lt_two_pow (lt_of_lt_of_le hb (by
        calc (64 : Nat) = 2 ^ 6 := by norm_num
        _ ≤ 2 ^ i := Nat.pow_le_pow_right (by omega) h6))
    simp [hi, h6, hbf]

theorem char_toNat_ofNatAux (n : Nat) (h : n.isValidChar) :
    (Char.ofNatAux n h).toNat = n := rfl

theorem char_toNat_ofNat_valid (n : Nat) (h : n < 55296) :
    (Char.ofNat n).toNat = n := by
  unfold Char.ofNat
  rw [dif_pos (Or.inl h)]
  exact char_toNat_ofNatAux _ _

theorem char_eq_of_toNat {a b : Char} (h : a.toNat = b.toNat) : a = b :=
  Char.eq_of_val_eq (UInt32.ext h)

theorem toLower_toNat (c : Char) :
    (Char.toLower c).toNat =
      if 65 ≤ c.toNat ∧ c.toNat ≤ 90 then c.toNat + 32 else c.toNat := by
  unfold Char.toLower
  dsimp only
  split_ifs with h1
  · exact char_toNat_ofNat_valid _ (by omega)
  · rfl

theorem toLower_notUpper (c : Char) :
    ¬(65 ≤ (Char.toLower c).toNat ∧ (Char.toLower c).toNat ≤ 90) := by
  rw [toLower_toNat]
  split_ifs <;> omega

theorem toLower_eq_self {c : Char} (h : ¬(65 ≤ c.toNat ∧ c.toNat ≤ 90)) :
    Char.toLower c = c :=
  char_eq_of_toNat (by rw [toLower_toNat, if_neg h])

theorem pyIsSpace_toNat {c : Char} (h : pyIsSpace c = true) :
    (9 ≤ c.toNat ∧ c.toNat ≤ 13) ∨ (28 ≤ c.toNat ∧ c.toNat ≤ 32) ∨
    c.toNat = 0x85 ∨ c.toNat = 0xA0 ∨ c.toNat = 0x1680 ∨
    (0x2000 ≤ c.toNat ∧ c.toNat ≤ 0x200A) ∨ c.toNat = 0x2028 ∨
    c.toNat = 0x2029 ∨ c.toNat = 0x202F ∨ c.toNat = 0x205F ∨
    c.toNat = 0x3000 := by
  unfold pyIsSpace at h
  simp only [Bool.or_eq_true, Bool.and_eq_true, decide_eq_true_eq,
    beq_iff_eq] at h
  omega

theorem pyIsSpace_toLower {c : Char} (h : pyIsSpace c = true) :
    Char.toLower c = c := by
  apply toLower_eq_self
  have := pyIsSpace_toNat h
  omega

theorem cIsSpace_imp_pyIsSpace {c : Char} (h : cIsSpace c = true) :
    pyIsSpace c = true := by
  unfold cIsSpace at h
  unfold pyIsSpace
  simp only [Bool.or_eq_true, Bool.and_eq_true, decide_eq_true_eq,
    beq_iff_eq] at h ⊢
  omega

theorem uniDecimal_lt {n d : Nat} (h : uniDecimal n = some d) : d < 10 := by
  unfold uniDecimal at h
  split at h
  · rename_i s hs
    have hp := List.find?_some hs
    simp only [Bool.and_eq_true, decide_eq_true_eq] at hp
    cases h
    omega
  · exact Option.noConfusion h

theorem transformChar_cases (c : Char) :
    (c.toNat < 127 ∧ transformChar c = c) ∨
    (pyIsSpace c = true ∧ transformChar c = ' ') ∨
    ((uniDecimal c.toNat).isSome = true ∧ 48 ≤ (transformChar c).toNat ∧
      (transformChar c).toNat ≤ 57) ∨
    transformChar c = '?' := by
  unfold transformChar
  by_cases h1 : c.toNat < 127
  · rw [if_pos h1]
    exact Or.inl ⟨h1, rfl⟩
  · rw [if_neg h1]
    by_cases h2 : pyIsSpace c = true
    · rw [if_pos h2]
      exact Or.inr (Or.inl ⟨h2, rfl⟩)
    · rw [if_neg h2]
      cases hu : uniDecimal c.toNat with
      | some d =>
        have hd : d < 10 := uniDecimal_lt hu
        refine Or.inr (Or.inr (Or.inl ⟨rfl, ?_, ?_⟩)) <;>
          rw [char_toNat_ofNat_valid _ (by omega)] <;> omega
      | none => exact Or.inr (Or.inr (Or.inr rfl))

theorem digitVal_char_sound {base : Nat} {c : Char} {v : Nat} (hb : base ≤ 16)
    (h : digitVal base c = some v) :
    (48 ≤ c.toNat ∧ c.toNat ≤ 57) ∨ (97 ≤ c.toNat ∧ c.toNat ≤ 102) ∨
    (65 ≤ c.toNat ∧ c.toNat ≤ 70) := by
  unfold digitVal at h
  split_ifs at h with h1 h2 h3 h4 h5 h6 <;> omega

theorem digitsGo_cons_underscore (base acc : Nat) (d : Char) (ds : Str) :
    digitsGo base acc ('_' :: d :: ds) =
      match digitVal base d with
      | some w => digitsGo base (acc * base + w) ds
      | none => none := rfl

theorem digitsGo_cons (base acc : Nat) (c : Char) (cs : Str) (h0 : ¬ c = '_') :
    digitsGo base acc (c :: cs) =
      match digitVal base c with
      | some w => digitsGo base (acc * base + w) cs
      | none => none := by
  rw [digitsGo.eq_def]
  dsimp only
  rw [if_neg h0]

theorem pyDigits_cons (base : Nat) (c : Char) (cs : Str) :
    pyDigits base (c :: cs) =
      match digitVal base c with
      | some w => digitsGo base w cs
      | none => none := rfl

theorem digitsGo_char_sound (base : Nat) (hb : base ≤ 16) :
    ∀ (l : Str) (acc v : Nat), digitsGo base acc l = some v →
      ∀ c ∈ l, digitCharOK c := by
  suffices H : ∀ (n : Nat) (l : Str), l.length ≤ n → ∀ (acc v : Nat),
      digitsGo base acc l = some v → ∀ c ∈ l, digitCharOK c from
    fun l acc v h c hc => H l.length l le_rfl acc v h c hc
  intro n
  induction n with
  | zero =>
    intro l hl acc v _ c hc
    have : l = [] := List.eq_nil_of_length_eq_zero (by omega)
    subst this
    cases hc
  | succ n ih =>
    intro l hl acc v h c hc
    cases l with
    | nil => cases hc
    | cons c₀ cs =>
      by_cases h0 : c₀ = '_'
      · subst h0
        cases cs with
        | nil => exact Option.noConfusion h
        | cons d ds =>
          rw [digitsGo_cons_underscore] at h
          cases hd : digitVal base d with
          | none => rw [hd] at h; exact Option.noConfusion h
          | some w =>
            rw [hd] at h
            rcases List.mem_cons.mp hc with rfl | hc₁
            · exact Or.inl rfl
            rcases List.mem_cons.mp hc₁ with rfl | hc₂
            · exact Or.inr (digitVal_char_sound hb hd)
            · exact ih ds (by simp at hl; omega) _ _ h c hc₂
      · rw [digitsGo_cons base acc c₀ cs h0] at h
        cases hd : digitVal base c₀ with
        | none => rw [hd] at h; exact Option.noConfusion h
        | some w =>
          rw [hd] at h
          rcases List.mem_cons.mp hc with rfl | hc₁
          · exact Or.inr (digitVal_char_sound hb hd)
          · exact ih cs (by simp at hl; omega) _ _ h c hc₁

theorem pyDigits_char_sound (base : Nat) (hb : base ≤ 16) :
    ∀ (l : Str) (v : Nat), pyDigits base l = some v → ∀ c ∈ l, digitCharOK c := by
  intro l v h c hc
  cases l with
  | nil => cases hc
  | cons c₀ cs =>
    rw [pyDigits_cons] at h
    cases hd : digitVal base c₀ with
    | none => rw [hd] at h; exact Option.noConfusion h
    | some w =>
      rw [hd] at h
      rcases List.mem_cons.mp hc with rfl | hc₁
      · exact Or.inr (digitVal_char_sound hb hd)
      · exact digitsGo_char_sound base hb cs w v h c hc₁

theorem pyIntNat_cons₂ (base : Nat) (p₁ p₂ c₁ c₂ : Char) (rest : Str) :
    pyIntNat base (some (p₁, p₂)) (c₁ :: c₂ :: rest) =
      if c₁ = p₁ ∧ Char.toLower c₂ = p₂ then
        match rest with
        | '_' :: rest₂ => pyDigits base rest₂
        | _ => pyDigits base rest
      else pyDigits base (c₁ :: c₂ :: rest) := rfl

theorem pyIntNat_char_sound (base : Nat) (pfx : Option (Char × Char))
    (hb : base ≤ 16) :
    ∀ (s : Str) (v : Nat), pyIntNat base pfx s = some v →
      ∀ c ∈ s, digitCharOK c ∨
        (∃ p₁ p₂, pfx = some (p₁, p₂) ∧ (c = p₁ ∨ Char.toLower c = p₂)) := by
  intro s v h c hc
  rcases pfx with _ | ⟨p₁, p₂⟩
  · exact Or.inl (pyDigits_char_sound base hb s v h c hc)
  · rcases s with _ | ⟨c₁, _ | ⟨c₂, rest⟩⟩
    · cases hc
    · have h' : pyDigits base [c₁] = some v := h
      exact Or.inl (pyDigits_char_sound base hb _ v h' c hc)
    · rw [pyIntNat_cons₂] at h
      by_cases hp : c₁ = p₁ ∧ Char.toLower c₂ = p₂
      · rw [if_pos hp] at h
        rcases List.mem_cons.mp hc with rfl | hc₁
        · exact Or.inr ⟨p₁, p₂, rfl, Or.inl hp.1⟩
        rcases List.mem_cons.mp hc₁ with rfl | hc₂
        · exact Or.inr ⟨p₁, p₂, rfl, Or.inr hp.2⟩
        · split at h
          · rename_i rest₂
            rcases List.mem_cons.mp hc₂ with rfl | hc₃
            · exact Or.inl (Or.inl rfl)
            · exact Or.inl (pyDigits_char_sound base hb _ v h c hc₃)
          · exact Or.inl (pyDigits_char_sound base hb _ v h c hc₂)
      · rw [if_neg hp] at h
        exact Or.inl (pyDigits_char_sound base hb _ v h c hc)

theorem mem_dropWhile {p : Char → Bool} :
    ∀ {l : Str} {c : Char}, c ∈ l → c ∈ l.dropWhile p ∨ p c = true := by
  intro l
  induction l with
  | nil => intro c hc; cases hc
  | cons a l ih =>
    intro c hc
    rw [List.dropWhile_cons]
    by_cases ha : p a
    · rw [if_pos ha]
      rcases List.mem_cons.mp hc with rfl | hc'
      · exact Or.inr ha
      · exact ih hc'
    · rw [if_neg ha]
      exact Or.inl hc

theorem mem_pyStrip {s : Str} {c : Char} (hc : c ∈ s) :
    c ∈ pyStrip s ∨ pyIsSpace c = true := by
  unfold pyStrip
  rcases mem_dropWhile hc with h1 | h1
  · rcases mem_dropWhile (List.mem_reverse.mpr h1) with h2 | h2
    · exact Or.inl (List.mem_reverse.mpr h2)
    · exact Or.inr h2
  · exact Or.inr h1

theorem mem_cStrip {s : Str} {c : Char} (hc : c ∈ s) :
    c ∈ cStrip s ∨ cIsSpace c = true := by
  unfold cStrip
  rcases mem_dropWhile hc with h1 | h1
  · rcases mem_dropWhile (List.mem_reverse.mpr h1) with h2 | h2
    · exact Or.inl (List.mem_reverse.mpr h2)
    · exact Or.inr h2
  · exact Or.inr h1

theorem pyInt_char_sound (base : Nat) (pfx : Option (Char × Char))
    (hb : base ≤ 16)
    (hpfx : pfx = none ∨
      ∃ p₂, pfx = some ('0', p₂) ∧ (p₂ = 'x' ∨ p₂ = 'b' ∨ p₂ = 'o')) :
    ∀ (s : Str) (v : Int), pyInt base pfx s = some v →
      ∀ c ∈ s, pyIsSpace c = true ∨ (uniDecimal c.toNat).isSome = true ∨
        c = '+' ∨ c = '-' ∨ digitCharOK c ∨
        (∃ p₁ p₂, pfx = some (p₁, p₂) ∧ (c = p₁ ∨ Char.toLower c = p₂)) := by
  intro s v h c hc
  have hc' : transformChar c ∈ pyTransform s :=
    List.mem_map_of_mem transformChar hc
  have hascii : cIsSpace (transformChar c) = true ∨ transformChar c = '+' ∨
      transformChar c = '-' ∨ digitCharOK (transformChar c) ∨
      (∃ p₁ p₂, pfx = some (p₁, p₂) ∧
        (transformChar c = p₁ ∨ Char.toLower (transformChar c) = p₂)) := by
    rcases mem_cStrip hc' with ht | hsp
    · unfold pyInt at h
      split at h
      · rename_i rest heq
        rcases Option.map_eq_some'.mp h with ⟨w, hw, _⟩
        rw [heq] at ht
        rcases List.mem_cons.mp ht with he | ht'
        · exact Or.inr (Or.inl he)
        · rcases pyIntNat_char_sound base pfx hb rest w hw _ ht' with h' | h'
          · exact Or.inr (Or.inr (Or.inr (Or.inl h')))
          · exact Or.inr (Or.inr (Or.inr (Or.inr h')))
      · rename_i rest heq
        rcases Option.map_eq_some'.mp h with ⟨w, hw, _⟩
        rw [heq] at ht
        rcases List.mem_cons.mp ht with he | ht'
        · exact Or.inr (Or.inr (Or.inl he))
        · rcases pyIntNat_char_sound base pfx hb rest w hw _ ht' with h' | h'
          · exact Or.inr (Or.inr (Or.inr (Or.inl h')))
          · exact Or.inr (Or.inr (Or.inr (Or.inr h')))
      · rcases Option.map_eq_some'.mp h with ⟨w, hw, _⟩
        rcases pyIntNat_char_sound base pfx hb _ w hw _ ht with h' | h'
        · exact Or.inr (Or.inr (Or.inr (Or.inl h')))
        · exact Or.inr (Or.inr (Or.inr (Or.inr h')))
    · exact Or.inl hsp
  rcases transformChar_cases c with ⟨_, he⟩ | ⟨h1, _⟩ | ⟨h1, _, _⟩ | he
  · rw [he] at hascii
    rcases hascii with hA | hA | hA | hA | hA
    · exact Or.inl (cIsSpace_imp_pyIsSpace hA)
    · exact Or.inr (Or.inr (Or.inl hA))
    · exact Or.inr (Or.inr (Or.inr (Or.inl hA)))
    · exact Or.inr (Or.inr (Or.inr (Or.inr (Or.inl hA))))
    · exact Or.inr (Or.inr (Or.inr (Or.inr (Or.inr hA))))
  · exact Or.inl h1
  · exact Or.inr (Or.inl h1)
  · rw [he] at hascii
    exfalso
    rcases hascii with hA | hA | hA | hA | ⟨p₁, p₂, hpe, hA⟩
    · exact absurd hA (by decide)
    · exact absurd hA (by decide)
    · exact absurd hA (by decide)
    · exact absurd hA (by decide)
    · rcases hpfx with hn | ⟨q₂, hq, hq₂⟩
      · rw [hn] at hpe
        exact Option.noConfusion hpe
      · rw [hq] at hpe
        injection hpe with hpe'
        injection hpe' with hp₁ hp₂
        rcases hA with hA | hA
        · rw [← hp₁] at hA
          exact absurd hA (by decide)
        · rw [← hp₂] at hA
          rcases hq₂ with rfl | rfl | rfl <;> exact absurd hA (by decide)

theorem sound_disj_numOK {e : Char} {pfx : Option (Char × Char)}
    (hnu : ¬(65 ≤ e.toNat ∧ e.toNat ≤ 90))
    (hpfx : pfx = none ∨
      ∃ p₂, pfx = some ('0', p₂) ∧ (p₂ = 'x' ∨ p₂ = 'b' ∨ p₂ = 'o'))
    (hd : pyIsSpace e = true ∨ (uniDecimal e.toNat).isSome = true ∨
      e = '+' ∨ e = '-' ∨ digitCharOK e ∨
      (∃ p₁ p₂, pfx = some (p₁, p₂) ∧ (e = p₁ ∨ Char.toLower e = p₂))) :
    numCharOK e := by
  rcases hd with h | h | h | h | h | ⟨p₁, p₂, hpe, hq⟩
  · exact Or.inl h
  · exact Or.inr (Or.inr (Or.inr (Or.inr (Or.inr (Or.inr (Or.inr (Or.inr h)))))))
  · subst h; decide
  · subst h; decide
  · rcases h with h | h | h | h
    · subst h; decide
    · exact Or.inr (Or.inr (Or.inr (Or.inr (Or.inr (Or.inr (Or.inl h))))))
    · exact Or.inr (Or.inr (Or.inr (Or.inr (Or.inr (Or.inr (Or.inr (Or.inl h)))))))
    · exact absurd h (by omega)
  · rcases hpfx with hn | ⟨q₂, hq', hq₂⟩
    · rw [hn] at hpe
      exact Option.noConfusion hpe
    · rw [hq'] at hpe
      injection hpe with hpe'
      injection hpe' with hp₁ hp₂
      rcases hq with hq | hq
      · rw [hq, ← hp₁]; decide
      · rw [toLower_eq_self hnu] at hq
        rw [hq, ← hp₂]
        rcases hq₂ with rfl | rfl | rfl <;> decide

theorem parse_number_char_sound {s : Str} {v : Int}
    (h : parse_number s = some v) :
    ∀ c ∈ s, numCharOK (Char.toLower c) := by
  intro c hc
  rcases mem_pyStrip hc with ht | hsp
  · have htl : Char.toLower c ∈ pyLower (pyStrip s) :=
      List.mem_map_of_mem Char.toLower ht
    unfold parse_number at h
    split at h
    · rename_i rest heq
      rw [heq] at htl
      rcases List.mem_cons.mp htl with he | htl'
      · rw [he]; decide
      rcases List.mem_cons.mp htl' with he | htl''
      · rw [he]; decide
      · exact sound_disj_numOK (toLower_notUpper c)
          (Or.inr ⟨'x', rfl, Or.inl rfl⟩)
          (pyInt_char_sound 16 _ (by omega) (Or.inr ⟨'x', rfl, Or.inl rfl⟩)
            rest v h _ htl'')
    · rename_i rest heq
      rw [heq] at htl
      rcases List.mem_cons.mp htl with he | htl'
      · rw [he]; decide
      rcases List.mem_cons.mp htl' with he | htl''
      · rw [he]; decide
      · exact sound_disj_numOK (toLower_notUpper c)
          (Or.inr ⟨'b', rfl, Or.inr (Or.inl rfl)⟩)
          (pyInt_char_sound 2 _ (by omega)
            (Or.inr ⟨'b', rfl, Or.inr (Or.inl rfl)⟩) rest v h _ htl'')
    · rename_i rest heq
      rw [heq] at htl
      rcases List.mem_cons.mp htl with he | htl'
      · rw [he]; decide
      rcases List.mem_cons.mp htl' with he | htl''
      · rw [he]; decide
      · exact sound_disj_numOK (toLower_notUpper c)
          (Or.inr ⟨'o', rfl, Or.inr (Or.inr rfl)⟩)
          (pyInt_char_sound 8 _ (by omega)
            (Or.inr ⟨'o', rfl, Or.inr (Or.inr rfl)⟩) rest v h _ htl'')
    · exact sound_disj_numOK (toLower_notUpper c) (Or.inl rfl)
        (pyInt_char_sound 10 none (by omega) (Or.inl rfl) _ v h _ htl)
  · rw [pyIsSpace_toLower hsp]
    exact Or.inl hsp

/-- C3 counterexample: tokens containing a sign character or an underscore
separator ARE accepted as numeric literals (Python int semantics), contrary
to the claim that any non-digit character makes parsing fail. -/
theorem C3_counterexample :
    parse_number ("+5".data) = some 5 ∧
    parse_number ("1_0".data) = some 10 ∧
    '+' ∈ ("+5".data) ∧ '_' ∈ ("1_0".data) := by
  refine ⟨?_, ?_, ?_, ?_⟩ <;> decide

/-- C3 amended: numeric-literal parsing fails on an empty remainder after a
base prefix and on any character that is not (up to the lowercasing the
parser applies) whitespace (ASCII or Unicode), a sign, an underscore
separator, a base-prefix letter, an ASCII digit of some supported base or a
Unicode decimal digit; but tokens with a leading sign, well-placed
underscores, Unicode decimal digits or surrounding Unicode whitespace are
accepted, per Python int semantics. -/
theorem C3_amended_numeric_grammar :
    (∀ (s : Str) (v : Int), parse_number s = some v →
      ∀ c ∈ s, numCharOK (Char.toLower c)) ∧
    parse_number [] = none ∧
    parse_number ("0x".data) = none ∧
    parse_number ("0b".data) = none ∧
    parse_number ("0o".data) = none ∧
    parse_number ("12g".data) = none ∧
    parse_number ("_5".data) = none ∧
    parse_number ("5_".data) = none ∧
    parse_number ("٤".data) = some 4 ∧
    parse_number ("\u00A05".data) = some 5 ∧
    parse_number ("+ 5".data) = none := by
  refine ⟨fun s v h => parse_number_char_sound h,
    ?_, ?_, ?_, ?_, ?_, ?_, ?_, ?_, ?_, ?_⟩ <;> decide

/-- C3 witness: the soundness bound applied at the accepted tokens "+5",
"1_0" and "٤" and their characters. -/
theorem C3_amended_numeric_grammar_witness :
    numCharOK (Char.toLower '+') ∧ numCharOK (Char.toLower '_') ∧
    numCharOK (Char.toLower '٤') :=
  ⟨C3_amended_numeric_grammar.1 ("+5".data) 5 (by decide) '+' (by decide),
   C3_amended_numeric_grammar.1 ("1_0".data) 10 (by decide) '_' (by decide),
   C3_amended_numeric_grammar.1 ("٤".data) 4 (by decide) '٤' (by decide)⟩

theorem lookup_mem :
    ∀ {L : List (Str × Nat)} {k : Str} {v : Nat},
      List.lookup k L = some v → (k, v) ∈ L := by
  intro L
  induction L with
  | nil => intro k v h; simp [List.lookup] at h
  | cons p L ih =>
    intro k v h
    obtain ⟨a, b⟩ := p
    simp only [List.lookup] at h
    split at h
    · rename_i hk
      have : k = a := by simpa using hk
      subst this
      cases h
      exact List.mem_cons_self _ _
    · exact List.mem_cons_of_mem _ (ih h)

theorem pass1_cons (st : AsmState) (n : Nat) (l : Str) (ls : List Str) :
    pass1 st n (l :: ls) =
      match parse_line st l with
      | .error e => .error (.atLine n e)
      | .ok (some cmd, st') =>
        pass1 { st' with program := st'.program ++ [cmd] } (n + 1) ls
      | .ok (none, st') => pass1 st' (n + 1) ls := rfl

theorem pass1_error_atLine :
    ∀ (ls : List Str) (st : AsmState) (n : Nat) (e : AsmErr),
      pass1 st n ls = .error e → ∃ m e', e = .atLine m e' := by
  intro ls
  induction ls with
  | nil => intro st n e h; exact Except.noConfusion h
  | cons l ls ih =>
    intro st n e h
    rw [pass1_cons] at h
    cases hp : parse_line st l with
    | error e' =>
      rw [hp] at h
      have h' : (Except.error (AsmErr.atLine n e') :
          Except AsmErr AsmState) = .error e := h
      exact ⟨n, e', (Except.error.inj h').symm⟩
    | ok pr =>
      obtain ⟨cmd?, st'⟩ := pr
      rw [hp] at h
      cases cmd? with
      | some cmd => exact ih _ _ _ h
      | none => exact ih _ _ _ h

theorem resolve_cmd_none {L : List (Str × Nat)} {c : Cmd} (hl : c.label = none) :
    resolve_cmd L c = .ok c := by
  unfold resolve_cmd
  rw [hl]

theorem resolve_cmd_label {L : List (Str × Nat)} {c : Cmd} {l : Str}
    (hl : c.label = some l) :
    resolve_cmd L c =
      match List.lookup l L with
      | none => .error (.unknownLabel l)
      | some a =>
        match c.opcode with
        | .CONST => .ok { c with value := some a, label := none }
        | .LOAD => .ok { c with address_arg := some a, label := none }
        | _ => .ok c := by
  unfold resolve_cmd
  rw [hl]

theorem resolve_cmd_error {L : List (Str × Nat)} {c : Cmd} {e : AsmErr}
    (h : resolve_cmd L c = .error e) :
    ∃ l, e = .unknownLabel l ∧ c.label = some l ∧ List.lookup l L = none := by
  cases hl : c.label with
  | none => rw [resolve_cmd_none hl] at h; exact Except.noConfusion h
  | some l =>
    rw [resolve_cmd_label hl] at h
    cases ha : List.lookup l L with
    | none =>
      rw [ha] at h
      have h' : (Except.error (AsmErr.unknownLabel l) :
          Except AsmErr Cmd) = .error e := h
      exact ⟨l, (Except.error.inj h').symm, rfl, ha⟩
    | some a =>
      rw [ha] at h
      cases ho : c.opcode <;> rw [ho] at h <;> exact Except.noConfusion h

theorem pass2_cons (L : List (Str × Nat)) (c : Cmd) (cs : List Cmd) :
    pass2 L (c :: cs) =
      match resolve_cmd L c with
      | .error e => .error e
      | .ok c' =>
        match pass2 L cs with
        | .error e => .error e
        | .ok cs' => .ok (c' :: cs') := rfl

theorem pass2_error_unknown :
    ∀ (cs : List Cmd) (L : List (Str × Nat)) (e : AsmErr),
      pass2 L cs = .error e →
      ∃ l, e = .unknownLabel l ∧ List.lookup l L = none ∧
        ∃ c ∈ cs, c.label = some l := by
  intro cs
  induction cs with
  | nil => intro L e h; exact Except.noConfusion h
  | cons c cs ih =>
    intro L e h
    rw [pass2_cons] at h
    cases hr : resolve_cmd L c with
    | error e' =>
      rw [hr] at h
      have h' : (Except.error e' : Except AsmErr (List Cmd)) = .error e := h
      obtain ⟨l, rfl, hlbl, hlk⟩ := resolve_cmd_error hr
      exact ⟨l, (Except.error.inj h').symm, hlk, c, List.mem_cons_self _ _, hlbl⟩
    | ok c' =>
      rw [hr] at h
      cases hp : pass2 L cs with
      | error e'' =>
        rw [hp] at h
        have h' : (Except.error e'' : Except AsmErr (List Cmd)) = .error e := h
        obtain ⟨l, rfl, hlk, d, hd, hdl⟩ := ih _ _ hp
        exact ⟨l, (Except.error.inj h').symm, hlk, d,
          List.mem_cons_of_mem _ hd, hdl⟩
      | ok cs' =>
        rw [hp] at h
        exact Except.noConfusion h

theorem pass2_ok_mem :
    ∀ (cs : List Cmd) (L : List (Str × Nat)) (cs' : List Cmd),
      pass2 L cs = .ok cs' →
      ∀ c' ∈ cs', ∃ c ∈ cs, resolve_cmd L c = .ok c' := by
  intro cs
  induction cs with
  | nil =>
    intro L cs' h c' hc'
    have h' : (Except.ok ([] : List Cmd) : Except AsmErr (List Cmd)) = .ok cs' := h
    cases Except.ok.inj h'
    cases hc'
  | cons c cs ih =>
    intro L cs' h c' hc'
    rw [pass2_cons] at h
    cases hr : resolve_cmd L c with
    | error e => rw [hr] at h; exact Except.noConfusion h
    | ok d =>
      rw [hr] at h
      cases hp : pass2 L cs with
      | error e => rw [hp] at h; exact Except.noConfusion h
      | ok ds =>
        rw [hp] at h
        have h' : (Except.ok (d :: ds) : Except AsmErr (List Cmd)) = .ok cs' := h
        cases Except.ok.inj h'
        rcases List.mem_cons.mp hc' with rfl | hmem
        · exact ⟨c, List.mem_cons_self _ _, hr⟩
        · obtain ⟨b, hb, hrb⟩ := ih _ _ hp c' hmem
          exact ⟨b, List.mem_cons_of_mem _ hb, hrb⟩

theorem pass2_ok_pointwise :
    ∀ (cs : List Cmd) (L : List (Str × Nat)) (cs' : List Cmd),
      pass2 L cs = .ok cs' →
      cs'.length = cs.length ∧
      ∀ (i : Nat) (c : Cmd), cs[i]? = some c →
        ∃ c', cs'[i]? = some c' ∧ resolve_cmd L c = .ok c' := by
  intro cs
  induction cs with
  | nil =>
    intro L cs' h
    have h' : (Except.ok ([] : List Cmd) : Except AsmErr (List Cmd)) = .ok cs' := h
    cases Except.ok.inj h'
    exact ⟨rfl, fun i c hc => by simp at hc⟩
  | cons c cs ih =>
    intro L cs' h
    rw [pass2_cons] at h
    cases hr : resolve_cmd L c with
    | error e => rw [hr] at h; exact Except.noConfusion h
    | ok d =>
      rw [hr] at h
      cases hp : pass2 L cs with
      | error e => rw [hp] at h; exact Except.noConfusion h
      | ok ds =>
        rw [hp] at h
        have h' : (Except.ok (d :: ds) : Except AsmErr (List Cmd)) = .ok cs' := h
        cases Except.ok.inj h'
        obtain ⟨hlen, hpt⟩ := ih _ _ hp
        refine ⟨by simp [hlen], ?_⟩
        intro i a ha
        cases i with
        | zero =>
          simp only [List.getElem?_cons_zero] at ha
          cases Option.some.inj ha
          exact ⟨d, by simp, hr⟩
        | succ j =>
          simp only [List.getElem?_cons_succ] at ha
          obtain ⟨c', hc', hrc⟩ := hpt j a ha
          exact ⟨c', by simpa using hc', hrc⟩

/-- C8: a deferred label reference is resolved against the label table of the
completed first pass, so forward and backward references get the same bound
address; and an UnknownLabel rejection can only happen after the whole first
pass succeeded, never on first sight of the reference. -/
theorem C8_label_resolution :
    (∀ (lines : List Str) (l : Str),
      assembleL lines = .error (.unknownLabel l) →
      ∃ st, pass1 mkAssembler 1 lines = .ok st ∧
        List.lookup l st.labels = none ∧ ∃ c ∈ st.program, c.label = some l) ∧
    (∀ (lines : List Str) (st : AsmState) (cmds : List Cmd) (i : Nat)
      (c : Cmd) (l : Str) (a : Nat),
      pass1 mkAssembler 1 lines = .ok st →
      pass2 st.labels st.program = .ok cmds →
      st.program[i]? = some c → c.label = some l →
      List.lookup l st.labels = some a →
      ∃ c', cmds[i]? = some c' ∧
        (c.opcode = .CONST → c'.value = some a) ∧
        (c.opcode = .LOAD → c'.address_arg = some a)) := by
  constructor
  · intro lines l h
    unfold assembleL at h
    cases hp : pass1 mkAssembler 1 lines with
    | error e =>
      rw [hp] at h
      have h' : (Except.error e : Except AsmErr (List Cmd)) =
        .error (.unknownLabel l) := h
      obtain ⟨m, e', rfl⟩ := pass1_error_atLine _ _ _ _ hp
      exact AsmErr.noConfusion (Except.error.inj h')
    | ok st =>
      rw [hp] at h
      obtain ⟨l', heq, hlk, c, hc, hlbl⟩ := pass2_error_unknown _ _ _ h
      cases AsmErr.unknownLabel.inj heq.symm
      exact ⟨st, rfl, hlk, c, hc, hlbl⟩
  · intro lines st cmds i c l a _ h2 hi hlbl ha
    obtain ⟨_, hpt⟩ := pass2_ok_pointwise _ _ _ h2
    obtain ⟨c', hc', hrc⟩ := hpt i c hi
    rw [resolve_cmd_label hlbl, ha] at hrc
    refine ⟨c', hc', ?_, ?_⟩
    · intro ho
      rw [ho] at hrc
      cases Except.ok.inj hrc
      rfl
    · intro ho
      rw [ho] at hrc
      cases Except.ok.inj hrc
      rfl

/-- C8 witness: part 2 applied to the backward program
"store / x: / load x" (the reference resolves to the table's binding 1) and
part 1 applied to "load nope", whose rejection carries the completed
first-pass state. -/
theorem C8_label_resolution_witness :
    (∃ c', ([{ address := 0, opcode := .STORE, mnemonic := ("store".data),
               args := [], raw_line := ("store".data) },
             { address := 1, opcode := .LOAD, mnemonic := ("load".data),
               args := [("x".data)], raw_line := ("load x".data),
               address_arg := some 1 }] : List Cmd)[1]? = some c' ∧
      c'.address_arg = some 1) ∧
    (∃ st, pass1 mkAssembler 1 [("load nope".data)] = .ok st ∧
      List.lookup ("nope".data) st.labels = none ∧
      ∃ c ∈ st.program, c.label = some ("nope".data)) := by
  constructor
  · obtain ⟨c', hc', _, hload⟩ :=
      C8_label_resolution.2 [("store".data), ("x:".data), ("load x".data)]
        { program :=
            [{ address := 0, opcode := .STORE, mnemonic := ("store".data),
               args := [], raw_line := ("store".data) },
             { address := 1, opcode := .LOAD, mnemonic := ("load".data),
               args := [("x".data)], raw_line := ("load x".data),
               label := some ("x".data) }],
          labels := [(("x".data), 1)], current_address := 2 }
        [{ address := 0, opcode := .STORE, mnemonic := ("store".data),
           args := [], raw_line := ("store".data) },
         { address := 1, opcode := .LOAD, mnemonic := ("load".data),
           args := [("x".data)], raw_line := ("load x".data),
           address_arg := some 1 }]
        1
        { address := 1, opcode := .LOAD, mnemonic := ("load".data),
          args := [("x".data)], raw_line := ("load x".data),
          label := some ("x".data) }
        ("x".data) 1 (by decide) (by decide) (by decide) (by decide)
        (by decide)
    exact ⟨c', hc', hload rfl⟩
  · exact C8_label_resolution.1 [("load nope".data)] ("nope".data) (by decide)

theorem parse_line_store (st : AsmState) :
    parse_line st ("store".data) =
      .ok (some (storeCmd st.current_address),
        { st with current_address := st.current_address + 1 }) := rfl

theorem pass1_replicate_store :
    ∀ (n : Nat) (st : AsmState) (m : Nat) (rest : List Str),
      pass1 st m (List.replicate n ("store".data) ++ rest) =
        pass1 { st with program := st.program ++ storeCmds st.current_address n,
                        current_address := st.current_address + n } (m + n) rest := by
  intro n
  induction n with
  | zero =>
    intro st m rest
    show pass1 st m rest = _
    have : { st with program := st.program ++ storeCmds st.current_address 0,
                     current_address := st.current_address + 0 } = st := by
      cases st
      simp [storeCmds]
    rw [this, Nat.add_zero]
  | succ n ih =>
    intro st m rest
    rw [List.replicate_succ, List.cons_append, pass1_cons, parse_line_store]
    show pass1 { st with program := st.program ++ [storeCmd st.current_address],
                         current_address := st.current_address + 1 }
        (m + 1) (List.replicate n ("store".data) ++ rest) = _
    rw [ih]
    have h₁ : st.program ++ storeCmds st.current_address (n + 1) =
        (st.program ++ [storeCmd st.current_address]) ++
          storeCmds (st.current_address + 1) n := by
      simp [storeCmds]
    have h₂ : st.current_address + (n + 1) = (st.current_address + 1) + n := by
      omega
    have h₃ : m + (n + 1) = (m + 1) + n := by omega
    rw [h₁, h₂, h₃]

theorem pass1_fin_tail (p : List Cmd) (a m : Nat) :
    pass1 ⟨p, [], a⟩ m [("fin:".data), ("const fin".data)] =
      .ok ⟨p ++ [finCmd a], [(("fin".data), a)], a + 1⟩ := rfl

theorem pass2_storeCmds (L : List (Str × Nat)) :
    ∀ (n a : Nat), pass2 L (storeCmds a n) = .ok (storeCmds a n) := by
  intro n
  induction n with
  | zero => intro a; rfl
  | succ n ih =>
    intro a
    show pass2 L (storeCmd a :: storeCmds (a + 1) n) = _
    rw [pass2_cons, resolve_cmd_none (rfl : (storeCmd a).label = none), ih]
    exact rfl

theorem pass2_append {L : List (Str × Nat)} :
    ∀ (xs ys xs' ys' : List Cmd),
      pass2 L xs = .ok xs' → pass2 L ys = .ok ys' →
      pass2 L (xs ++ ys) = .ok (xs' ++ ys') := by
  intro xs
  induction xs with
  | nil =>
    intro ys xs' ys' hx hy
    have h' : (Except.ok ([] : List Cmd) : Except AsmErr (List Cmd)) = .ok xs' := hx
    cases Except.ok.inj h'
    simpa using hy
  | cons c cs ih =>
    intro ys xs' ys' hx hy
    rw [pass2_cons] at hx
    cases hr : resolve_cmd L c with
    | error e => rw [hr] at hx; exact Except.noConfusion hx
    | ok d =>
      rw [hr] at hx
      cases hp : pass2 L cs with
      | error e => rw [hp] at hx; exact Except.noConfusion hx
      | ok ds =>
        rw [hp] at hx
        have h' : (Except.ok (d :: ds) : Except AsmErr (List Cmd)) = .ok xs' := hx
        cases Except.ok.inj h'
        rw [List.cons_append, pass2_cons, hr, ih _ _ _ hp hy]
        exact rfl

theorem splitOnChar_eq_cons (sep c : Char) (cs : Str) :
    splitOnChar sep (c :: cs) =
      if c = sep then [] :: splitOnChar sep cs
      else
        match splitOnChar sep cs with
        | [] => [[c]]
        | t :: ts => (c :: t) :: ts := rfl

theorem splitOnChar_not_mem {sep : Char} :
    ∀ {l : Str}, sep ∉ l → splitOnChar sep l = [l] := by
  intro l
  induction l with
  | nil => intro _; rfl
  | cons c cs ih =>
    intro h
    have hc : ¬ c = sep := fun he => h (he ▸ List.mem_cons_self c cs)
    have hcs : sep ∉ cs := fun hm => h (List.mem_cons_of_mem c hm)
    rw [splitOnChar_eq_cons, if_neg hc, ih hcs]

theorem splitOnChar_append {sep : Char} :
    ∀ (l rest : Str), sep ∉ l →
      splitOnChar sep (l ++ sep :: rest) = l :: splitOnChar sep rest := by
  intro l
  induction l with
  | nil =>
    intro rest _
    show splitOnChar sep (sep :: rest) = _
    rw [splitOnChar_eq_cons, if_pos rfl]
  | cons c cs ih =>
    intro rest h
    have hc : ¬ c = sep := fun he => h (he ▸ List.mem_cons_self c cs)
    have hcs : sep ∉ cs := fun hm => h (List.mem_cons_of_mem c hm)
    show splitOnChar sep (c :: (cs ++ sep :: rest)) = _
    rw [splitOnChar_eq_cons, if_neg hc, ih rest hcs]

theorem splitOnChar_joinNL :
    ∀ (ls : List Str), ls ≠ [] → (∀ l ∈ ls, '\n' ∉ l) →
      splitOnChar '\n' (joinNL ls) = ls := by
  intro ls
  induction ls with
  | nil => intro h _; exact absurd rfl h
  | cons l ls ih =>
    intro _ hmem
    cases ls with
    | nil => exact splitOnChar_not_mem (hmem l (List.mem_cons_self l []))
    | cons l₂ ls' =>
      show splitOnChar '\n' (l ++ '\n' :: joinNL (l₂ :: ls')) = _
      rw [splitOnChar_append l _ (hmem l (List.mem_cons_self _ _)),
        ih (by simp) (fun d hd => hmem d (List.mem_cons_of_mem l hd))]

theorem assembleL_eq_ok {lines : List Str} {st : AsmState}
    (h : pass1 mkAssembler 1 lines = .ok st) :
    assembleL lines = pass2 st.labels st.program := by
  unfold assembleL
  rw [h]

theorem assembleL_big :
    assembleL bigLines =
      .ok (storeCmds 0 65536 ++
        [{ finCmd 65536 with value := some 65536, label := none }]) := by
  have hp1 : pass1 mkAssembler 1 bigLines =
      .ok ⟨(([] : List Cmd) ++ storeCmds 0 65536) ++ [finCmd (0 + 65536)],
        [(("fin".data), 0 + 65536)], (0 + 65536) + 1⟩ := by
    unfold bigLines
    rw [pass1_replicate_store]
    exact pass1_fin_tail _ _ _
  rw [assembleL_eq_ok hp1]
  show pass2 [(("fin".data), 0 + 65536)]
      ((([] : List Cmd) ++ storeCmds 0 65536) ++ [finCmd (0 + 65536)]) = _
  rw [List.nil_append, Nat.zero_add]
  exact pass2_append _ _ _ _ (pass2_storeCmds _ 65536 0) (by decide)

theorem assemble_eq_assembleL (st : AsmState) (source : String) :
    assemble st source = assembleL (splitOnChar '\n' source.data) := by
  cases st
  rfl

/-- C4 counterexample: a successful assemble call whose returned program
contains a CONST record with resolved value 65536 — a label bound to
address 65536 is written into the 16-bit CONST operand slot unchecked, so
the claimed range invariant fails. -/
theorem C4_counterexample :
    ∃ prog, assemble mkAssembler bigSrc = .ok prog ∧
      ¬ (∀ c ∈ prog, ∀ v, c.opcode = .CONST → c.value = some v → v ≤ 65535) := by
  refine ⟨storeCmds 0 65536 ++
    [{ finCmd 65536 with value := some 65536, label := none }], ?_, ?_⟩
  · have hsplit : splitOnChar '\n' bigSrc.data = bigLines := by
      have hdata : bigSrc.data = joinNL bigLines := rfl
      rw [hdata]
      apply splitOnChar_joinNL
      · rw [bigLines]
        exact List.append_ne_nil_of_right_ne_nil _ (by simp)
      · intro l hl
        rw [bigLines] at hl
        rcases List.mem_append.mp hl with hl | hl
        · rw [List.eq_of_mem_replicate hl]; decide
        · rcases List.mem_cons.mp hl with rfl | hl
          · decide
          · rcases List.mem_cons.mp hl with rfl | hl
            · decide
            · cases hl
    rw [assemble_eq_assembleL, hsplit]
    exact assembleL_big
  · intro hall
    have hmem : ({ finCmd 65536 with value := some 65536, label := none } : Cmd) ∈
        storeCmds 0 65536 ++
          [{ finCmd 65536 with value := some 65536, label := none }] :=
      List.mem_append_right _ (List.mem_cons_self _ _)
    have := hall _ hmem 65536 rfl rfl
    omega

theorem parse_line_effect {st : AsmState} {line₀ : Str} {res : Option Cmd}
    {st' : AsmState} (h : parse_line st line₀ = .ok (res, st')) :
    st'.program = st.program ∧
    ((res = none ∧ st'.current_address = st.current_address ∧
       ∀ p ∈ st'.labels, p ∈ st.labels ∨ p.2 = st.current_address) ∨
     (∃ cmd, res = some cmd ∧
       st'.current_address = st.current_address + 1 ∧
       st'.labels = st.labels ∧
       (∀ v, cmd.value = some v → v ≤ 65535) ∧
       (∀ v, cmd.address_arg = some v → v ≤ 16777215))) := by
  simp only [parse_line] at h
  split at h
  · -- blank line
    obtain ⟨rfl, rfl⟩ := Prod.mk.inj (Except.ok.inj h)
    exact ⟨rfl, Or.inl ⟨rfl, rfl, fun p hp => Or.inl hp⟩⟩
  · split at h
    · -- label definition line
      split at h
      · exact Except.noConfusion h
      · obtain ⟨rfl, rfl⟩ := Prod.mk.inj (Except.ok.inj h)
        refine ⟨rfl, Or.inl ⟨rfl, rfl, fun p hp => ?_⟩⟩
        rcases List.mem_append.mp hp with hp | hp
        · exact Or.inl hp
        · rcases List.mem_cons.mp hp with rfl | hp
          · exact Or.inr rfl
          · cases hp
    · -- instruction line
      split at h
      · obtain ⟨rfl, rfl⟩ := Prod.mk.inj (Except.ok.inj h)
        exact ⟨rfl, Or.inl ⟨rfl, rfl, fun p hp => Or.inl hp⟩⟩
      · split at h
        · exact Except.noConfusion h
        · split at h
          · -- CONST
            split at h
            · obtain ⟨rfl, rfl⟩ := Prod.mk.inj (Except.ok.inj h)
              rename_i args a heq
              refine ⟨rfl, Or.inr ⟨_, rfl, rfl, rfl, fun v hv => ?_, fun v hv => ?_⟩⟩
              · cases hpn : parse_number a with
                | none => rw [hpn] at hv; simp at hv
                | some w =>
                  rw [hpn] at hv
                  dsimp only at hv
                  split_ifs at hv with hr
                  all_goals simp at hv
                  all_goals omega
              · cases hpn : parse_number a with
                | none => rw [hpn] at hv; simp at hv
                | some w =>
                  rw [hpn] at hv
                  dsimp only at hv
                  split_ifs at hv with hr
            · exact Except.noConfusion h
          · -- LOAD
            split at h
            · obtain ⟨rfl, rfl⟩ := Prod.mk.inj (Except.ok.inj h)
              rename_i args a heq
              refine ⟨rfl, Or.inr ⟨_, rfl, rfl, rfl, fun v hv => ?_, fun v hv => ?_⟩⟩
              · cases hpn : parse_number a with
                | none => rw [hpn] at hv; simp at hv
                | some w =>
                  rw [hpn] at hv
                  dsimp only at hv
                  split_ifs at hv with hr
              · cases hpn : parse_number a with
                | none => rw [hpn] at hv; simp at hv
                | some w =>
                  rw [hpn] at hv
                  dsimp only at hv
                  split_ifs at hv with hr
                  all_goals simp at hv
                  all_goals omega
            · exact Except.noConfusion h
          · -- STORE
            split at h
            · obtain ⟨rfl, rfl⟩ := Prod.mk.inj (Except.ok.inj h)
              exact ⟨rfl, Or.inr ⟨_, rfl, rfl, rfl,
                fun v hv => by simp at hv, fun v hv => by simp at hv⟩⟩
            · exact Except.noConfusion h
          · -- BITREV
            split at h
            · obtain ⟨rfl, rfl⟩ := Prod.mk.inj (Except.ok.inj h)
              exact ⟨rfl, Or.inr ⟨_, rfl, rfl, rfl,
                fun v hv => by simp at hv, fun v hv => by simp at hv⟩⟩
            · exact Except.noConfusion h

theorem pass1_invariant :
    ∀ (ls : List Str) (st : AsmState) (n : Nat) (st' : AsmState),
      pass1 st n ls = .ok st' →
      st.current_address = st.program.length →
      (∀ p ∈ st.labels, p.2 ≤ st.current_address) →
      (∀ c ∈ st.program,
        (∀ v, c.value = some v → v ≤ 65535) ∧
        (∀ v, c.address_arg = some v → v ≤ 16777215)) →
      st'.current_address = st'.program.length ∧
      (∀ p ∈ st'.labels, p.2 ≤ st'.current_address) ∧
      (∀ c ∈ st'.program,
        (∀ v, c.value = some v → v ≤ 65535) ∧
        (∀ v, c.address_arg = some v → v ≤ 16777215)) := by
  intro ls
  induction ls with
  | nil =>
    intro st n st' h hlen hlab hgood
    cases Except.ok.inj h
    exact ⟨hlen, hlab, hgood⟩
  | cons l ls ih =>
    intro st n st' h hlen hlab hgood
    rw [pass1_cons] at h
    cases hp : parse_line st l with
    | error e => rw [hp] at h; exact Except.noConfusion h
    | ok pr =>
      obtain ⟨res, st₁⟩ := pr
      rw [hp] at h
      obtain ⟨hprog, heff⟩ := parse_line_effect hp
      cases res with
      | none =>
        rcases heff with ⟨_, haddr, hlabs⟩ | ⟨cmd, hcmd, _⟩
        · apply ih _ _ _ h
          · rw [haddr, hprog, hlen]
          · intro p hp'
            rcases hlabs p hp' with h' | h'
            · exact (hlab p h').trans (le_of_eq haddr.symm)
            · rw [haddr, h']
          · rw [hprog]; exact hgood
        · exact Option.noConfusion hcmd
      | some cmd =>
        rcases heff with ⟨hcmd, _⟩ | ⟨cmd', hcmd, haddr, hlabs, hv, ha⟩
        · exact Option.noConfusion hcmd
        · cases Option.some.inj hcmd
          apply ih _ _ _ h
          · simp only [List.length_append, List.length_cons, List.length_nil,
              hprog, haddr, hlen]
          · intro p hp'
            rw [hlabs] at hp'
            rw [haddr]
            exact (hlab p hp').trans (by omega)
          · intro c hc
            rcases List.mem_append.mp hc with hc | hc
            · exact hgood c (hprog ▸ hc)
            · rcases List.mem_cons.mp hc with rfl | hc
              · exact ⟨hv, ha⟩
              · cases hc

theorem assembleL_operand_bounds :
    ∀ (lines : List Str) (prog : List Cmd),
      assembleL lines = .ok prog →
      ∀ c ∈ prog,
        (∀ v, c.opcode = .CONST → c.value = some v →
          v ≤ 65535 ∨ v ≤ prog.length) ∧
        (∀ v, c.opcode = .LOAD → c.address_arg = some v →
          v ≤ 16777215 ∨ v ≤ prog.length) := by
  intro lines prog h c hc
  unfold assembleL at h
  cases hp : pass1 mkAssembler 1 lines with
  | error e => rw [hp] at h; exact Except.noConfusion h
  | ok st =>
    rw [hp] at h
    obtain ⟨hlen, hlab, hgood⟩ := pass1_invariant _ _ _ _ hp rfl
      (fun p hp' => absurd hp' (List.not_mem_nil p))
      (fun c hc' => absurd hc' (List.not_mem_nil c))
    obtain ⟨hlen2, _⟩ := pass2_ok_pointwise _ _ _ h
    obtain ⟨c₀, hc₀, hr⟩ := pass2_ok_mem _ _ _ h c hc
    cases hl : c₀.label with
    | none =>
      rw [resolve_cmd_none hl] at hr
      cases Except.ok.inj hr
      exact ⟨fun v _ hv => Or.inl ((hgood c hc₀).1 v hv),
        fun v _ hv => Or.inl ((hgood c hc₀).2 v hv)⟩
    | some l =>
      rw [resolve_cmd_label hl] at hr
      cases ha : List.lookup l st.labels with
      | none => rw [ha] at hr; exact Except.noConfusion hr
      | some a =>
        rw [ha] at hr
        have haddr : a ≤ st.program.length := by
          have := hlab (l, a) (lookup_mem ha)
          rw [hlen] at this
          exact this
        have hplen : prog.length = st.program.length := hlen2
        cases ho : c₀.opcode <;> rw [ho] at hr <;> cases Except.ok.inj hr
        · refine ⟨fun v hop _ => ?_, fun v hop _ => ?_⟩ <;>
            · rw [ho] at hop; exact Opcode.noConfusion hop
        · refine ⟨fun v hop _ => ?_, fun v _ hv => ?_⟩
          · simp only at hop
            exact Opcode.noConfusion hop
          · simp only at hv
            cases Option.some.inj hv
            exact Or.inr (by omega)
        · refine ⟨fun v _ hv => ?_, fun v hop _ => ?_⟩
          · simp only at hv
            cases Option.some.inj hv
            exact Or.inr (by omega)
          · simp only at hop
            exact Opcode.noConfusion hop
        · refine ⟨fun v hop _ => ?_, fun v hop _ => ?_⟩ <;>
            · rw [ho] at hop; exact Opcode.noConfusion hop

/-- C4 amended: after every successful assemble call, each CONST record's
resolved value is at most 65535 OR is a label-resolved instruction address
bounded by the program length, and likewise for LOAD with 16777215; the
unconditional range invariant claimed holds except for label-resolved CONST
operands in programs of more than 65535 instructions. -/
theorem C4_amended_operand_bounds (st : AsmState) (source : String)
    (prog : List Cmd) (h : assemble st source = .ok prog) :
    ∀ c ∈ prog,
      (∀ v, c.opcode = .CONST → c.value = some v →
        v ≤ 65535 ∨ v ≤ prog.length) ∧
      (∀ v, c.opcode = .LOAD → c.address_arg = some v →
        v ≤ 16777215 ∨ v ≤ prog.length) := by
  apply assembleL_operand_bounds (splitOnChar '\n' source.data)
  cases st
  exact h

/-- C4 witness: the bound applied to the one-line program "const 5". -/
theorem C4_amended_operand_bounds_witness :
    (5 : Nat) ≤ 65535 ∨
      (5 : Nat) ≤ ([{ address := 0, opcode := Opcode.CONST,
                      mnemonic := ("const".data), args := [("5".data)],
                      raw_line := ("const 5".data),
                      value := some 5 }] : List Cmd).length :=
  (C4_amended_operand_bounds mkAssembler "const 5"
      [{ address := 0, opcode := Opcode.CONST, mnemonic := ("const".data),
         args := [("5".data)], raw_line := ("const 5".data), value := some 5 }]
      (by decide)
      { address := 0, opcode := Opcode.CONST, mnemonic := ("const".data),
        args := [("5".data)], raw_line := ("const 5".data), value := some 5 }
      (by decide)).1 5 rfl rfl

theorem dropWhile_cons_false {p : Char → Bool} {a : Char} {l : Str}
    (ha : p a = false) : List.dropWhile p (a :: l) = a :: l := by
  rw [List.dropWhile_cons, ha]
  simp

theorem dropWhile_head_false {p : Char → Bool} :
    ∀ {l : Str}, List.dropWhile p l = l → ∀ (a : Char) (t : Str), l = a :: t →
      p a = false := by
  intro l h a t he
  subst he
  rw [List.dropWhile_cons] at h
  by_cases ha : p a
  · rw [if_pos ha] at h
    have hlen := congrArg List.length h
    have hsub : (List.dropWhile p t).length ≤ t.length :=
      (List.dropWhile_sublist p).length_le
    simp at hlen
    omega
  · exact Bool.of_not_eq_true ha

theorem parse_line_label_def (st : AsmState) (name : Str)
    (hsemi : ';' ∉ name)
    (h1 : name.dropWhile pyIsSpace = name)
    (h2 : name.reverse.dropWhile pyIsSpace = name.reverse)
    (hlk : List.lookup name st.labels = none) :
    parse_line st (name ++ [':']) =
      .ok (none,
        { st with labels := st.labels ++ [(name, st.current_address)] }) := by
  have hcm : (name ++ [':']).takeWhile (fun c => c ≠ ';') = name ++ [':'] := by
    apply List.takeWhile_eq_self_iff.mpr
    intro x hx
    rcases List.mem_append.mp hx with hx | hx
    · simp only [ne_eq, decide_eq_true_eq]
      intro he
      exact hsemi (he ▸ hx)
    · rcases List.mem_cons.mp hx with rfl | hx
      · decide
      · cases hx
  have hd1 : List.dropWhile pyIsSpace (name ++ [':']) = name ++ [':'] := by
    cases hn : name with
    | nil => decide
    | cons a as =>
      rw [List.cons_append]
      exact dropWhile_cons_false (dropWhile_head_false (hn ▸ h1) a as rfl)
  have hd2 : List.dropWhile pyIsSpace ((name ++ [':']).reverse) =
      (name ++ [':']).reverse := by
    rw [List.reverse_append]
    show List.dropWhile pyIsSpace (':' :: name.reverse) = ':' :: name.reverse
    exact dropWhile_cons_false (by decide)
  have hstripline : pyStrip (name ++ [':']) = name ++ [':'] := by
    unfold pyStrip
    rw [hd1, hd2, List.reverse_reverse]
  have hstripname : pyStrip name = name := by
    unfold pyStrip
    rw [h1, h2, List.reverse_reverse]
  have hne : ¬ (name ++ [':'] = ([] : Str)) := by simp
  have hcol : endsWithColon (name ++ [':']) = true := by
    unfold endsWithColon
    rw [List.getLast?_concat]
    rfl
  simp only [parse_line]
  rw [hcm, hstripline, if_neg hne, if_pos hcol, List.dropLast_concat,
    hstripname, hlk]

/-- C7 (amended): a label definition line binds the (stripped) name to the
current address — the address of the instruction that will be emitted next —
yields no record and leaves the address counter unchanged; the program
"start:\nconst 42\nload start" assembles to two instructions with start
bound to 0 and LOAD resolving to 0, but the bytes are
[0xAA, 0x0A, 0x00, 0x00, 0x17, 0x00, 0x00, 0x00]: the first byte of
CONST 42 is 0xAA, not the 0x2A the claim states. -/
theorem C7_amended_label_binding :
    (∀ (st : AsmState) (name : Str),
      ';' ∉ name →
      name.dropWhile pyIsSpace = name →
      name.reverse.dropWhile pyIsSpace = name.reverse →
      List.lookup name st.labels = none →
      parse_line st (name ++ [':']) =
        .ok (none,
          { st with labels := st.labels ++ [(name, st.current_address)] })) ∧
    assembleS "start:\nconst 42\nload start" =
      .ok [{ address := 0, opcode := .CONST, mnemonic := ("const".data),
             args := [("42".data)], raw_line := ("const 42".data),
             value := some 42 },
           { address := 1, opcode := .LOAD, mnemonic := ("load".data),
             args := [("start".data)], raw_line := ("load start".data),
             address_arg := some 0 }] ∧
    assemble_to_binary "start:\nconst 42\nload start" =
      .ok [0xAA, 0x0A, 0, 0, 0x17, 0, 0, 0] := by
  refine ⟨fun st name hs hh1 hh2 hlk =>
    parse_line_label_def st name hs hh1 hh2 hlk, ?_, ?_⟩ <;> decide

/-- C7 witness: the label lemma applied to "start:" on a fresh assembler. -/
theorem C7_amended_label_binding_witness :
    parse_line mkAssembler (("start".data) ++ [':']) =
      .ok (none, { program := [], labels := [(("start".data), 0)],
                   current_address := 0 }) :=
  C7_amended_label_binding.1 mkAssembler ("start".data)
    (by decide) (by decide) (by decide) (by decide)

/-- C5: for every CONST record with resolved value v ≤ 65535 and every LOAD
record with resolved address a ≤ 16777215, the encoded little-endian word has
the opcode id (42 resp. 23) in its low 6 bits, the operand in bits 6-21
resp. 6-29, and all remaining high bits zero. -/
theorem C5_roundtrip_bitfield :
    (∀ (cmd : Cmd) (v : Nat), cmd.opcode = .CONST → cmd.value = some v →
      v ≤ 65535 →
      ∃ b₀ b₁ b₂ b₃, encode_instruction cmd = .ok [b₀, b₁, b₂, b₃] ∧
        le4Word b₀ b₁ b₂ b₃ % 64 = 42 ∧
        (le4Word b₀ b₁ b₂ b₃ >>> 6) % 65536 = v ∧
        le4Word b₀ b₁ b₂ b₃ >>> 22 = 0) ∧
    (∀ (cmd : Cmd) (a : Nat), cmd.opcode = .LOAD → cmd.address_arg = some a →
      a ≤ 16777215 →
      ∃ b₀ b₁ b₂ b₃, encode_instruction cmd = .ok [b₀, b₁, b₂, b₃] ∧
        le4Word b₀ b₁ b₂ b₃ % 64 = 23 ∧
        (le4Word b₀ b₁ b₂ b₃ >>> 6) % 16777216 = a ∧
        le4Word b₀ b₁ b₂ b₃ >>> 30 = 0) := by
  constructor
  · intro cmd v hop hval hv
    have henc : encode_instruction cmd = pack4 (v <<< 6 ||| 42) := by
      unfold encode_instruction
      rw [hop, hval]
      rfl
    have hn : v <<< 6 ||| 42 = 64 * v + 42 := shiftLeft6_lor v 42 (by omega)
    have hlt : 64 * v + 42 < 4294967296 := by omega
    refine ⟨(64 * v + 42) % 256, (64 * v + 42) / 256 % 256,
      (64 * v + 42) / 65536 % 256, (64 * v + 42) / 16777216 % 256, ?_, ?_, ?_, ?_⟩
    · rw [henc, hn, pack4_ok _ hlt]
    · rw [le4Word_bytes _ hlt]; omega
    · rw [le4Word_bytes _ hlt, Nat.shiftRight_eq_div_pow]; norm_num; omega
    · rw [le4Word_bytes _ hlt, Nat.shiftRight_eq_div_pow]; norm_num; omega
  · intro cmd a hop harg ha
    have henc : encode_instruction cmd = pack4 (a <<< 6 ||| 23) := by
      unfold encode_instruction
      rw [hop, harg]
      rfl
    have hn : a <<< 6 ||| 23 = 64 * a + 23 := shiftLeft6_lor a 23 (by omega)
    have hlt : 64 * a + 23 < 4294967296 := by omega
    refine ⟨(64 * a + 23) % 256, (64 * a + 23) / 256 % 256,
      (64 * a + 23) / 65536 % 256, (64 * a + 23) / 16777216 % 256, ?_, ?_, ?_, ?_⟩
    · rw [henc, hn, pack4_ok _ hlt]
    · rw [le4Word_bytes _ hlt]; omega
    · rw [le4Word_bytes _ hlt, Nat.shiftRight_eq_div_pow]; norm_num; omega
    · rw [le4Word_bytes _ hlt, Nat.shiftRight_eq_div_pow]; norm_num; omega

/-- C5 witness: the law instantiated at CONST 125 and LOAD 558 (the
specification's own example words). -/
theorem C5_roundtrip_bitfield_witness :
    (∃ b₀ b₁ b₂ b₃,
      encode_instruction
        { address := 0, opcode := .CONST, mnemonic := ("const".data),
          args := [("125".data)], raw_line := ("const 125".data),
          value := some 125 } = .ok [b₀, b₁, b₂, b₃] ∧
      le4Word b₀ b₁ b₂ b₃ % 64 = 42 ∧
      (le4Word b₀ b₁ b₂ b₃ >>> 6) % 65536 = 125 ∧
      le4Word b₀ b₁ b₂ b₃ >>> 22 = 0) ∧
    (∃ b₀ b₁ b₂ b₃,
      encode_instruction
        { address := 0, opcode := .LOAD, mnemonic := ("load".data),
          args := [("558".data)], raw_line := ("load 558".data),
          address_arg := some 558 } = .ok [b₀, b₁, b₂, b₃] ∧
      le4Word b₀ b₁ b₂ b₃ % 64 = 23 ∧
      (le4Word b₀ b₁ b₂ b₃ >>> 6) % 16777216 = 558 ∧
      le4Word b₀ b₁ b₂ b₃ >>> 30 = 0) :=
  ⟨C5_roundtrip_bitfield.1 _ 125 rfl rfl (by omega),
   C5_roundtrip_bitfield.2 _ 558 rfl rfl (by omega)⟩

/-- C6: every STORE instruction encodes to exactly [0x01, 0x00, 0x00, 0x00]
and every BITREV instruction to exactly [0x3C, 0x00, 0x00, 0x00]. -/
theorem C6_bare_opcode_encoding (cmd : Cmd) :
    (cmd.opcode = .STORE → encode_instruction cmd = .ok [0x01, 0, 0, 0]) ∧
    (cmd.opcode = .BITREV → encode_instruction cmd = .ok [0x3C, 0, 0, 0]) := by
  constructor <;> intro h <;> · unfold encode_instruction; rw [h]; rfl

/-- C6 witness: the encoding evaluated on concrete STORE and BITREV records. -/
theorem C6_bare_opcode_encoding_witness :
    encode_instruction
      { address := 0, opcode := .STORE, mnemonic := ("store".data),
        args := [], raw_line := ("store".data) } = .ok [0x01, 0, 0, 0] ∧
    encode_instruction
      { address := 1, opcode := .BITREV, mnemonic := ("bitrev".data),
        args := [], raw_line := ("bitrev".data) } = .ok [0x3C, 0, 0, 0] :=
  ⟨(C6_bare_opcode_encoding _).1 rfl, (C6_bare_opcode_encoding _).2 rfl⟩

/-- C1: contrary to the claim, an argument that parses as a number but lies
outside the opcode's range is NOT rejected with a ValueOutOfRange error: the
out-of-range `raise` is swallowed by the surrounding `try/except` and the
argument is kept as a label reference, so assembly of such a lone line fails
only in pass 2 with an UnknownLabel error naming the numeric token. -/
theorem C1_out_of_range_is_label_fallback :
    assembleS "const 65536" = .error (.unknownLabel ("65536".data)) ∧
    assembleS "load 16777216" = .error (.unknownLabel ("16777216".data)) ∧
    assembleS "const -1" = .error (.unknownLabel ("-1".data)) ∧
    parse_line mkAssembler ("const 65536".data) =
      .ok (some { address := 0, opcode := .CONST, mnemonic := ("const".data),
                  args := [("65536".data)], raw_line := ("const 65536".data),
                  label := some ("65536".data) },
           { program := [], labels := [], current_address := 1 }) := by
  refine ⟨?_, ?_, ?_, ?_⟩ <;> decide

/-- C2 counterexample: the three-line source does not yield three records all
carrying value 100 — the third line "const 0144" has no 0o prefix and parses
as decimal 144. -/
theorem C2_counterexample :
    (assembleS "const 0x64\nconst 0b1100100\nconst 0144").map
        (List.map Cmd.value) ≠
      Except.ok [some 100, some 100, some 100] := by
  decide

/-- C2 amended: the three-line source assembles to CONST values 100, 100 and
144; the first two 4-byte words are identical and the third differs. -/
theorem C2_amended_literal_bases :
    (assembleS "const 0x64\nconst 0b1100100\nconst 0144").map
        (List.map Cmd.value) =
      Except.ok [some 100, some 100, some 144] ∧
    assemble_to_binary "const 0x64\nconst 0b1100100\nconst 0144" =
      .ok [0x2A, 0x19, 0, 0, 0x2A, 0x19, 0, 0, 0x2A, 0x24, 0, 0] ∧
    ([0x2A, 0x24, 0, 0] : List Nat) ≠ [0x2A, 0x19, 0, 0] := by
  refine ⟨?_, ?_, ?_⟩ <;> decide

/-- C7 counterexample: the program "start:\nconst 42\nload start" does not
produce the claimed bytes [0x2A, 0x0A, 0x00, 0x00, 0x17, 0x00, 0x00, 0x00] —
CONST 42 encodes to (42 <<< 6) ||| 42 = 0xAAA, whose first byte is 0xAA. -/
theorem C7_counterexample :
    assemble_to_binary "start:\nconst 42\nload start" ≠
      .ok [0x2A, 0x0A, 0, 0, 0x17, 0, 0, 0] := by
  decide

/-- C9: the result of assemble depends only on the source text — any
pre-existing instance state gives the same result as a fresh instance,
because program, label table and address counter are reset on entry. -/
theorem C9_assemble_is_stateless (st : AsmState) (source : String) :
    assemble st source = assemble mkAssembler source := by
  cases st
  rfl

/-- C10: a label may share its name with a mnemonic: the line "m:" is handled
by the label branch before mnemonic lookup, and a CONST as well as a LOAD
argument equal to the mnemonic name falls back to a label reference
resolving to the bound address (here 0). -/
theorem C10_mnemonic_named_label (m : Str)
    (h : m ∈ [("store".data), ("load".data), ("const".data), ("bitrev".data)]) :
    assembleL [m ++ [':'], ("const ".data) ++ m] =
      .ok [{ address := 0, opcode := .CONST, mnemonic := ("const".data),
             args := [m], raw_line := ("const ".data) ++ m,
             value := some 0 }] ∧
    assembleL [m ++ [':'], ("load ".data) ++ m] =
      .ok [{ address := 0, opcode := .LOAD, mnemonic := ("load".data),
             args := [m], raw_line := ("load ".data) ++ m,
             address_arg := some 0 }] := by
  fin_cases h <;> exact ⟨by decide, by decide⟩

/-- C10 witness: the theorem instantiated at the mnemonic "store", covering
the "const store" and the "load store" reference. -/
theorem C10_mnemonic_named_label_witness :
    (assembleL [("store".data) ++ [':'], ("const ".data) ++ ("store".data)] =
      .ok [{ address := 0, opcode := .CONST, mnemonic := ("const".data),
             args := [("store".data)],
             raw_line := ("const ".data) ++ ("store".data),
             value := some 0 }]) ∧
    (assembleL [("store".data) ++ [':'], ("load ".data) ++ ("store".data)] =
      .ok [{ address := 0, opcode := .LOAD, mnemonic := ("load".data),
             args := [("store".data)],
             raw_line := ("load ".data) ++ ("store".data),
             address_arg := some 0 }]) :=
  C10_mnemonic_named_label ("store".data) (by decide)

end Asm
